import Mathlib

/-!
# Grayscale kernel of cv2kinesis: `convert_to_grayscale`

A shallow embedding of the two copies of `parallel_to_grayscale.c`
(`containers/grayscale/c/src` and
`hybrid_pipeline/services/grayscale_service/c/src`) and of the pass loop of
`main.c`, followed by the properties the specification states about them.

Modelling conventions

* The buffer `unsigned char *data` is a `List Byte` with `Byte = Fin 256`; the
  list carries its own length, which the C function never receives.
* `int` values are `Int`.  Signed overflow and an access outside the buffer
  are undefined behaviour in C: the model returns `none` for both and never
  continues past them.  A result `some out` is a run that returned normally
  with `out` in the buffer.
* `float` is IEEE-754 binary32 with every product and every sum rounded to
  nearest, ties to even (`FLT_EVAL_METHOD == 0`, no fused multiply-add), the
  arithmetic of an x86-64 build.  All values that occur are non-negative
  multiples of `2^-27` below `2^128`, so a value `x` is the natural number
  `x * 2^27`.
* `printf` and `omp_get_max_threads` only log; they are left out.
* `#pragma omp parallel for` distributes the iterations over threads, in an
  order the source does not fix (`schedule(static)` in the first copy, the
  default schedule in the second).  `run_pixels` runs the loop body over a given
  order of the pixel indices.  When no two iterations touch a common byte
  (`RaceFree`) every order gives the same buffer and `convert_to_grayscale`
  runs the iterations in index order.  When two iterations touch a common byte
  the loop is a data race, its result depends on the schedule, and
  `convert_to_grayscale` returns `none`.
-/

namespace Grayscale

/-- One `unsigned char`. -/
abbrev Byte := Fin 256

/-- Largest value of `int` (32 bits). -/
def INT_MAX : Int := 2147483647

/-- Smallest value of `int` (32 bits). -/
def INT_MIN : Int := -2147483648

/-- Result of an `int` operation: the value when it is representable, `none`
(undefined behaviour) when it overflows. -/
def checkedInt (x : Int) : Option Int :=
  if INT_MIN ≤ x ∧ x ≤ INT_MAX then some x else none

/-- Read `data[idx]`; `none` when `idx` is outside the buffer. -/
def readByte (data : List Byte) (idx : Int) : Option Byte :=
  if 0 ≤ idx then data[idx.toNat]? else none

/-- Store `data[idx] = v`; `none` when `idx` is outside the buffer. -/
def writeByte (data : List Byte) (idx : Int) (v : Byte) : Option (List Byte) :=
  if 0 ≤ idx ∧ idx.toNat < data.length then some (data.set idx.toNat v) else none

/-- The indices iteration `i` of the loop reads and writes: `idx`, `idx + 1`
and `idx + 2` with `idx = i * channels`. -/
def touched (channels : Int) (i : Nat) : List Int :=
  [(i : Int) * channels, (i : Int) * channels + 1, (i : Int) * channels + 2]

/-- Iteration `i` touches no byte that another iteration below `numPixels`
touches. -/
def IterationAlone (channels : Int) (numPixels i : Nat) : Prop :=
  ∀ j < numPixels, i ≠ j → ∀ a ∈ touched channels i, a ∉ touched channels j

/-- Whether an iteration is alone on its bytes can be computed. -/
instance decIterationAlone (channels : Int) (numPixels i : Nat) :
    Decidable (IterationAlone channels numPixels i) :=
  inferInstanceAs (Decidable (∀ j < numPixels, i ≠ j →
    ∀ a ∈ touched channels i, a ∉ touched channels j))

/-- No two different iterations below `numPixels` touch a common byte: the
parallel loop has no data race. -/
def RaceFree (channels : Int) (numPixels : Nat) : Prop :=
  ∀ i < numPixels, IterationAlone channels numPixels i

/-- The absence of a data race can be computed. -/
instance decRaceFree (channels : Int) (numPixels : Nat) :
    Decidable (RaceFree channels numPixels) :=
  inferInstanceAs (Decidable (∀ i < numPixels, IterationAlone channels numPixels i))

/-! ## binary32 arithmetic, scaled by `2^27` -/

/-- The scale: the natural number `n` stands for the real `n / 2^27`. -/
def F32_SCALE : Nat := 2 ^ 27

/-- Number of low bits of `n` beyond a 24-bit significand (`fuel` bounds the
search; `n` itself is always enough). -/
def excessBits : Nat → Nat → Nat
  | 0, _ => 0
  | fuel + 1, n => if n < 2 ^ 24 then 0 else excessBits fuel (n / 2) + 1

/-- Rounding of an exact result to binary32: nearest value with a 24-bit
significand, ties to the even significand. -/
def roundF32 (n : Nat) : Nat :=
  let e := excessBits n n
  let q := n / 2 ^ e
  let rem := n % 2 ^ e
  if 2 ^ e < 2 * rem ∨ (2 * rem = 2 ^ e ∧ q % 2 = 1) then (q + 1) * 2 ^ e else q * 2 ^ e

/-- The literal `0.299f`: `10032775 / 2^25`. -/
def C_0_299f : Nat := 40131100

/-- The literal `0.587f`: `9848226 / 2^24`. -/
def C_0_587f : Nat := 78785808

/-- The literal `0.114f`: `15300821 / 2^27`. -/
def C_0_114f : Nat := 15300821

/-- The expression `0.299f * r + 0.587f * g + 0.114f * b`: the bytes are
promoted to `int` and converted to `float` exactly, each product is rounded,
and the sums are taken left to right, each rounded. -/
def weightedSum (r g b : Byte) : Nat :=
  roundF32 (roundF32 (roundF32 (C_0_299f * r.val) + roundF32 (C_0_587f * g.val))
    + roundF32 (C_0_114f * b.val))

/-- The conversion `(unsigned char) x` of a `float`: the integer part when it
is below 256, undefined behaviour otherwise. -/
def toUChar (s : Nat) : Option Byte :=
  if h : s / F32_SCALE < 256 then some ⟨s / F32_SCALE, h⟩ else none

/-- The byte `lum` the loop body computes for the bytes `r`, `g`, `b`. -/
def lum (r g b : Byte) : Byte :=
  (toUChar (weightedSum r g b)).getD 0

/-- The specification's luminance, `floor(0.299*R + 0.587*G + 0.114*B)` with
the weighted sum taken exactly. -/
def specLuminance (r g b : Byte) : Nat :=
  (299 * r.val + 587 * g.val + 114 * b.val) / 1000

/-! ## `containers/grayscale/c/src/parallel_to_grayscale.c` -/

namespace Containers

/-- Body of the `for` loop for pixel `i`. -/
def pixelBody (channels : Int) (data : List Byte) (i : Int) : Option (List Byte) := do
  let idx ← checkedInt (i * channels)
  let r ← readByte data idx
  let idx1 ← checkedInt (idx + 1)
  let g ← readByte data idx1
  let idx2 ← checkedInt (idx + 2)
  let b ← readByte data idx2
  let l ← toUChar (weightedSum r g b)
  let data ← writeByte data idx l
  let data ← writeByte data idx1 l
  writeByte data idx2 l

/-- The loop body applied to the pixel indices of `order`, one after the
other. -/
def run_pixels (channels : Int) (order : List Nat) (data : List Byte) :
    Option (List Byte) :=
  order.foldlM (fun (d : List Byte) (i : Nat) => pixelBody channels d (i : Int)) data

/-- The function `convert_to_grayscale`: `numPixels = width * height`, then the
parallel loop `for (i = 0; i < numPixels; i++)`, which has a result only when
its iterations do not race. -/
def convert_to_grayscale (data : List Byte) (width height channels : Int) :
    Option (List Byte) := do
  let numPixels ← checkedInt (width * height)
  if RaceFree channels numPixels.toNat then
    run_pixels channels (List.range numPixels.toNat) data
  else none

/-- The pass loop of `main`: `for (p = 0; p < passes; ++p)
convert_to_grayscale(img, width, height, channels)`. -/
def pass_loop : Nat → List Byte → Int → Int → Int → Option (List Byte)
  | 0, img, _, _, _ => some img
  | p + 1, img, width, height, channels =>
    (convert_to_grayscale img width height channels).bind
      (fun img1 => pass_loop p img1 width height channels)

end Containers

/-! ## `hybrid_pipeline/services/grayscale_service/c/src/parallel_to_grayscale.c` -/

namespace Hybrid

/-- Body of the `for` loop for pixel `i`; the chained assignment
`data[idx] = data[idx+1] = data[idx+2] = lum` stores from right to left. -/
def pixelBody (channels : Int) (data : List Byte) (i : Int) : Option (List Byte) := do
  let idx ← checkedInt (i * channels)
  let r ← readByte data idx
  let idx1 ← checkedInt (idx + 1)
  let g ← readByte data idx1
  let idx2 ← checkedInt (idx + 2)
  let b ← readByte data idx2
  let l ← toUChar (weightedSum r g b)
  let data ← writeByte data idx2 l
  let data ← writeByte data idx1 l
  writeByte data idx l

/-- The loop body applied to the pixel indices of `order`, one after the
other. -/
def run_pixels (channels : Int) (order : List Nat) (data : List Byte) :
    Option (List Byte) :=
  order.foldlM (fun (d : List Byte) (i : Nat) => pixelBody channels d (i : Int)) data

/-- The function `convert_to_grayscale` of the second copy, with the same
parallel loop. -/
def convert_to_grayscale (data : List Byte) (width height channels : Int) :
    Option (List Byte) := do
  let numPixels ← checkedInt (width * height)
  if RaceFree channels numPixels.toNat then
    run_pixels channels (List.range numPixels.toNat) data
  else none

end Hybrid

/-! ## Auxiliary pure description of one loop iteration -/

/-- The luminance of pixel `i` of `data` with `c` bytes per pixel. -/
def pixelLum (c : Nat) (data : List Byte) (i : Nat) : Byte :=
  lum (data.getD (i * c) 0) (data.getD (i * c + 1) 0) (data.getD (i * c + 2) 0)

/-- The buffer after the three stores of pixel `i`. -/
def grayStep (c : Nat) (data : List Byte) (i : Nat) : List Byte :=
  ((data.set (i * c) (pixelLum c data i)).set (i * c + 1) (pixelLum c data i)).set
    (i * c + 2) (pixelLum c data i)

/-! ## binary32: rounding error and range -/

theorem excessBits_le (fuel : Nat) : ∀ (n k : Nat), n < 2 ^ (24 + k) → excessBits fuel n ≤ k := by
  induction fuel with
  | zero => intro n k _; simp [excessBits]
  | succ f ih =>
    intro n k h
    unfold excessBits
    split
    · exact Nat.zero_le _
    · rename_i h24
      have hk : 1 ≤ k := by
        by_contra hk0
        have : k = 0 := by omega
        subst this
        exact h24 (by simpa using h)
      obtain ⟨j, rfl⟩ : ∃ j, k = j + 1 := ⟨k - 1, by omega⟩
      have h2 : n / 2 < 2 ^ (24 + j) := by
        have : (2 : Nat) ^ (24 + (j + 1)) = 2 ^ (24 + j) * 2 := by ring
        rw [this] at h
        exact Nat.div_lt_of_lt_mul (by omega)
      have := ih (n / 2) j h2
      omega

theorem roundF32_err (n e : Nat) (P : Nat) (hP : P = 2 ^ e) :
    let q := n / P
    let rem := n % P
    let r := if P < 2 * rem ∨ (2 * rem = P ∧ q % 2 = 1) then (q + 1) * P else q * P
    2 * r ≤ 2 * n + P ∧ 2 * n ≤ 2 * r + P := by
  intro q rem r
  have hpos : 0 < P := by rw [hP]; positivity
  have hdm : P * q + rem = n := Nat.div_add_mod n P
  have hrem : rem < P := Nat.mod_lt n hpos
  have hs : (q + 1) * P = P * q + P := by ring
  have hq : q * P = P * q := by ring
  show 2 * (if P < 2 * rem ∨ (2 * rem = P ∧ q % 2 = 1) then (q + 1) * P else q * P) ≤ 2 * n + P ∧
    2 * n ≤ 2 * (if P < 2 * rem ∨ (2 * rem = P ∧ q % 2 = 1) then (q + 1) * P else q * P) + P
  split
  · rename_i h
    rw [hs]
    constructor <;> omega
  · rename_i h
    rw [hq]
    constructor <;> omega

theorem roundF32_near (n : Nat) (h : n < 2 ^ 35) :
    roundF32 n ≤ n + 1024 ∧ n ≤ roundF32 n + 1024 := by
  have he : excessBits n n ≤ 11 := excessBits_le n n 11 (by simpa using h)
  have hP : 2 ^ excessBits n n ≤ 2 ^ 11 := Nat.pow_le_pow_right (by norm_num) he
  have := roundF32_err n (excessBits n n) (2 ^ excessBits n n) rfl
  simp only [] at this
  unfold roundF32
  simp only []
  constructor <;> omega

theorem excessBits_spec (fuel : Nat) : ∀ n : Nat, n < 2 ^ (24 + fuel) →
    n / 2 ^ excessBits fuel n < 2 ^ 24 ∧
    (0 < excessBits fuel n → 2 ^ 23 ≤ n / 2 ^ excessBits fuel n) := by
  induction fuel with
  | zero =>
    intro n h
    simp only [excessBits, pow_zero, Nat.div_one, Nat.lt_irrefl, false_implies, and_true]
    simpa using h
  | succ f ih =>
    intro n h
    unfold excessBits
    split
    · rename_i h24
      simp only [pow_zero, Nat.div_one, Nat.lt_irrefl, false_implies, and_true]
      exact h24
    · rename_i h24
      have h2 : n / 2 < 2 ^ (24 + f) := by
        have : (2 : Nat) ^ (24 + (f + 1)) = 2 ^ (24 + f) * 2 := by ring
        rw [this] at h
        exact Nat.div_lt_of_lt_mul (by omega)
      obtain ⟨i1, i2⟩ := ih (n / 2) h2
      have e : n / 2 ^ (excessBits f (n / 2) + 1) = n / 2 / 2 ^ excessBits f (n / 2) := by
        rw [Nat.pow_succ, Nat.mul_comm, Nat.div_div_eq_div_mul]
      rw [e]
      refine ⟨i1, fun _ => ?_⟩
      by_cases h0 : 0 < excessBits f (n / 2)
      · exact i2 h0
      · have : excessBits f (n / 2) = 0 := by omega
        rw [this]
        simp only [pow_zero, Nat.div_one]
        norm_num at h24 ⊢
        omega

/-- The value `roundF32 n` is a binary32 value next to `n`: a significand of at
most 24 bits at the exponent of `n`, at most half a unit in the last place away
from `n`, and `n` itself when `n` has at most 24 bits. -/
theorem roundF32_is_binary32 (n : Nat) :
    ∃ m e : Nat, roundF32 n = m * 2 ^ e ∧ m ≤ 2 ^ 24 ∧
      (0 < e → 2 ^ (23 + e) ≤ n) ∧
      2 * roundF32 n ≤ 2 * n + 2 ^ e ∧ 2 * n ≤ 2 * roundF32 n + 2 ^ e ∧
      (n < 2 ^ 24 → roundF32 n = n) := by
  have hn : n < 2 ^ (24 + n) :=
    lt_of_lt_of_le (Nat.lt_two_pow n) (Nat.pow_le_pow_right (by norm_num) (by omega))
  obtain ⟨s1, s2⟩ := excessBits_spec n n hn
  have herr := roundF32_err n (excessBits n n) (2 ^ excessBits n n) rfl
  simp only [] at herr
  have hlow : 0 < excessBits n n → 2 ^ (23 + excessBits n n) ≤ n := by
    intro h
    have := s2 h
    calc 2 ^ (23 + excessBits n n) = 2 ^ 23 * 2 ^ excessBits n n := by ring
      _ ≤ n / 2 ^ excessBits n n * 2 ^ excessBits n n := Nat.mul_le_mul_right _ this
      _ ≤ n := Nat.div_mul_le_self n _
  have hsmall : n < 2 ^ 24 → roundF32 n = n := by
    intro h
    have h0 : excessBits n n = 0 := by
      have := excessBits_le n n 0 (by simpa using h)
      omega
    unfold roundF32
    simp [h0, Nat.mod_one]
  by_cases hup : 2 ^ excessBits n n < 2 * (n % 2 ^ excessBits n n) ∨
      (2 * (n % 2 ^ excessBits n n) = 2 ^ excessBits n n ∧ n / 2 ^ excessBits n n % 2 = 1)
  · have hr : roundF32 n = (n / 2 ^ excessBits n n + 1) * 2 ^ excessBits n n := by
      unfold roundF32
      simp only []
      rw [if_pos hup]
    refine ⟨n / 2 ^ excessBits n n + 1, excessBits n n, hr, by omega, hlow, ?_, ?_, hsmall⟩
    · rw [hr]; rw [if_pos hup] at herr; exact herr.1
    · rw [hr]; rw [if_pos hup] at herr; exact herr.2
  · have hr : roundF32 n = n / 2 ^ excessBits n n * 2 ^ excessBits n n := by
      unfold roundF32
      simp only []
      rw [if_neg hup]
    refine ⟨n / 2 ^ excessBits n n, excessBits n n, hr, by omega, hlow, ?_, ?_, hsmall⟩
    · rw [hr]; rw [if_neg hup] at herr; exact herr.1
    · rw [hr]; rw [if_neg hup] at herr; exact herr.2

/-- The three constants are the binary32 values nearest to the decimal literals
`0.299`, `0.587` and `0.114`: a 24-bit significand times a power of two, less
than half a unit in the last place away from the decimal value. -/
theorem literals_are_binary32 :
    (C_0_299f = 10032775 * 2 ^ 2 ∧ 2 ^ 23 ≤ 10032775 ∧ 10032775 < 2 ^ 24 ∧
      299 * F32_SCALE < 1000 * C_0_299f + 1000 * 2 ∧
      1000 * C_0_299f < 299 * F32_SCALE + 1000 * 2) ∧
    (C_0_587f = 9848226 * 2 ^ 3 ∧ 2 ^ 23 ≤ 9848226 ∧ 9848226 < 2 ^ 24 ∧
      587 * F32_SCALE < 1000 * C_0_587f + 1000 * 4 ∧
      1000 * C_0_587f < 587 * F32_SCALE + 1000 * 4) ∧
    (C_0_114f = 15300821 * 2 ^ 0 ∧ 2 ^ 23 ≤ 15300821 ∧ 15300821 < 2 ^ 24 ∧
      2 * 114 * F32_SCALE < 2 * 1000 * C_0_114f + 1000 ∧
      2 * 1000 * C_0_114f < 2 * 114 * F32_SCALE + 1000) := by
  decide

theorem weightedSum_near (r g b : Byte) :
    weightedSum r g b ≤ C_0_299f * r.val + C_0_587f * g.val + C_0_114f * b.val + 5120 ∧
    C_0_299f * r.val + C_0_587f * g.val + C_0_114f * b.val ≤ weightedSum r g b + 5120 := by
  have hr := r.isLt
  have hg := g.isLt
  have hb := b.isLt
  unfold weightedSum
  simp only [C_0_299f, C_0_587f, C_0_114f] at *
  have h1 := roundF32_near (40131100 * r.val) (by norm_num; omega)
  have h2 := roundF32_near (78785808 * g.val) (by norm_num; omega)
  have h3 := roundF32_near (15300821 * b.val) (by norm_num; omega)
  have h4 := roundF32_near (roundF32 (40131100 * r.val) + roundF32 (78785808 * g.val))
    (by norm_num; omega)
  have h5 := roundF32_near (roundF32 (roundF32 (40131100 * r.val) + roundF32 (78785808 * g.val))
    + roundF32 (15300821 * b.val)) (by norm_num; omega)
  constructor <;> omega

theorem weightedSum_lt (r g b : Byte) : weightedSum r g b < 256 * F32_SCALE := by
  have h := weightedSum_near r g b
  have hr := r.isLt
  have hg := g.isLt
  have hb := b.isLt
  simp only [C_0_299f, C_0_587f, C_0_114f, F32_SCALE] at *
  norm_num
  omega

theorem weightedSum_div_lt (r g b : Byte) : weightedSum r g b / F32_SCALE < 256 := by
  have h := weightedSum_lt r g b
  have hS : 0 < F32_SCALE := by unfold F32_SCALE; positivity
  exact Nat.div_lt_of_lt_mul (by rw [Nat.mul_comm]; exact h)

theorem toUChar_weightedSum (r g b : Byte) :
    toUChar (weightedSum r g b) = some (lum r g b) := by
  have h := weightedSum_div_lt r g b
  simp [lum, toUChar, h]

theorem lum_val (r g b : Byte) : (lum r g b).val = weightedSum r g b / F32_SCALE := by
  have h := weightedSum_div_lt r g b
  simp [lum, toUChar, h]

theorem lum_spec (r g b : Byte) :
    (lum r g b).val ≤ specLuminance r g b ∧ specLuminance r g b ≤ (lum r g b).val + 1 ∧
    ((299 * r.val + 587 * g.val + 114 * b.val) % 1000 ≠ 0 →
      (lum r g b).val = specLuminance r g b) := by
  have h := weightedSum_near r g b
  have hr := r.isLt
  have hg := g.isLt
  have hb := b.isLt
  rw [lum_val]
  simp only [C_0_299f, C_0_587f, C_0_114f, F32_SCALE, specLuminance] at *
  norm_num
  refine ⟨?_, ?_, ?_⟩
  · omega
  · omega
  · intro hne
    omega

/-! ## The loop body -/

theorem checkedInt_eq_some {x y : Int} (h : checkedInt x = some y) :
    y = x ∧ INT_MIN ≤ x ∧ x ≤ INT_MAX := by
  unfold checkedInt at h
  split at h
  · rename_i hx
    exact ⟨(Option.some.inj h).symm, hx.1, hx.2⟩
  · cases h

theorem checkedInt_natCast (n : Nat) (h : (n : Int) ≤ INT_MAX) :
    checkedInt (n : Int) = some (n : Int) := by
  unfold checkedInt
  have : INT_MIN ≤ (n : Int) := by unfold INT_MIN; omega
  simp [this, h]

theorem readByte_eq_some {data : List Byte} {idx : Int} {v : Byte}
    (h : readByte data idx = some v) : 0 ≤ idx ∧ idx.toNat < data.length := by
  unfold readByte at h
  split at h
  · rename_i h0
    refine ⟨h0, ?_⟩
    by_contra hlt
    rw [List.getElem?_eq_none (by omega)] at h
    cases h
  · cases h

theorem readByte_natCast (data : List Byte) (n : Nat) :
    readByte data (n : Int) = data[n]? := by
  simp [readByte]

theorem writeByte_of_lt (data : List Byte) (idx : Int) (v : Byte)
    (h0 : 0 ≤ idx) (h : idx.toNat < data.length) :
    writeByte data idx v = some (data.set idx.toNat v) := by
  simp [writeByte, h0, h]

theorem writeByte_natCast (data : List Byte) (n : Nat) (v : Byte) (h : n < data.length) :
    writeByte data (n : Int) v = some (data.set n v) := by
  simp [writeByte, h]

theorem Hybrid.pixelBody_agrees (channels : Int) (data : List Byte) (i : Int) :
    Hybrid.pixelBody channels data i = Containers.pixelBody channels data i := by
  unfold Hybrid.pixelBody Containers.pixelBody
  simp only [Option.bind_eq_bind]
  cases h0 : checkedInt (i * channels) with
  | none => rfl
  | some idx =>
    simp only [Option.some_bind]
    cases hr : readByte data idx with
    | none => rfl
    | some r =>
      simp only [Option.some_bind]
      cases h1 : checkedInt (idx + 1) with
      | none => rfl
      | some idx1 =>
        simp only [Option.some_bind]
        cases hg : readByte data idx1 with
        | none => rfl
        | some g =>
          simp only [Option.some_bind]
          cases h2 : checkedInt (idx + 2) with
          | none => rfl
          | some idx2 =>
            simp only [Option.some_bind]
            cases hb : readByte data idx2 with
            | none => rfl
            | some b =>
              simp only [Option.some_bind]
              cases hl : toUChar (weightedSum r g b) with
              | none => rfl
              | some l =>
                obtain ⟨e1, -, -⟩ := checkedInt_eq_some h1
                obtain ⟨e2, -, -⟩ := checkedInt_eq_some h2
                obtain ⟨p0, q0⟩ := readByte_eq_some hr
                obtain ⟨p1, q1⟩ := readByte_eq_some hg
                obtain ⟨p2, q2⟩ := readByte_eq_some hb
                subst e1 e2
                simp only [Option.some_bind]
                rw [writeByte_of_lt data (idx + 2) l p2 q2,
                  writeByte_of_lt data idx l p0 q0]
                simp only [Option.some_bind]
                rw [writeByte_of_lt _ (idx + 1) l p1 (by simpa using q1),
                  writeByte_of_lt _ (idx + 1) l p1 (by simpa using q1)]
                simp only [Option.some_bind]
                rw [writeByte_of_lt _ idx l p0 (by simpa using q0),
                  writeByte_of_lt _ (idx + 2) l p2 (by simpa using q2)]
                congr 1
                have a01 : idx.toNat ≠ (idx + 1).toNat := by omega
                have a02 : idx.toNat ≠ (idx + 2).toNat := by omega
                have a12 : (idx + 1).toNat ≠ (idx + 2).toNat := by omega
                apply List.ext_getElem?
                intro k
                simp only [List.getElem?_set, List.length_set]
                split_ifs <;> rfl

theorem getElem?_eq_some_getD {data : List Byte} {n : Nat} (h : n < data.length) :
    data[n]? = some (data.getD n 0) := by
  simp [List.getD_eq_getElem?_getD, List.getElem?_eq_getElem h]

theorem Containers.pixelBody_natCast (c i : Nat) (data : List Byte)
    (hin : i * c + 2 < data.length) (hfit : (data.length : Int) ≤ INT_MAX) :
    Containers.pixelBody (c : Int) data (i : Int) = some (grayStep c data i) := by
  have e0 : (i : Int) * (c : Int) = ((i * c : Nat) : Int) := by push_cast; ring
  have e1 : ((i * c : Nat) : Int) + 1 = ((i * c + 1 : Nat) : Int) := by push_cast; ring
  have e2 : ((i * c : Nat) : Int) + 2 = ((i * c + 2 : Nat) : Int) := by push_cast; ring
  unfold Containers.pixelBody
  simp only [Option.bind_eq_bind]
  rw [e0, checkedInt_natCast _ (by omega)]
  simp only [Option.some_bind]
  rw [e1, e2, checkedInt_natCast _ (by omega), checkedInt_natCast _ (by omega)]
  simp only [Option.some_bind, readByte_natCast]
  rw [getElem?_eq_some_getD (show i * c < data.length by omega),
    getElem?_eq_some_getD (show i * c + 1 < data.length by omega),
    getElem?_eq_some_getD hin]
  simp only [Option.some_bind, toUChar_weightedSum]
  rw [writeByte_natCast _ _ _ (by omega)]
  simp only [Option.some_bind]
  rw [writeByte_natCast _ _ _ (by simp; omega)]
  simp only [Option.some_bind]
  rw [writeByte_natCast _ _ _ (by simp; omega)]
  rfl

theorem Containers.pixelBody_eq_some {channels : Int} {data out : List Byte} {i : Int}
    (h : Containers.pixelBody channels data i = some out) :
    0 ≤ i * channels ∧ i * channels + 2 ≤ INT_MAX ∧
      (i * channels + 2).toNat < data.length ∧ out.length = data.length := by
  unfold Containers.pixelBody at h
  simp only [Option.bind_eq_bind] at h
  cases h0 : checkedInt (i * channels) with
  | none => rw [h0] at h; cases h
  | some idx =>
    rw [h0] at h
    simp only [Option.some_bind] at h
    cases hr : readByte data idx with
    | none => rw [hr] at h; cases h
    | some r =>
      rw [hr] at h
      simp only [Option.some_bind] at h
      cases h1 : checkedInt (idx + 1) with
      | none => rw [h1] at h; cases h
      | some idx1 =>
        rw [h1] at h
        simp only [Option.some_bind] at h
        cases hg : readByte data idx1 with
        | none => rw [hg] at h; cases h
        | some g =>
          rw [hg] at h
          simp only [Option.some_bind] at h
          cases h2 : checkedInt (idx + 2) with
          | none => rw [h2] at h; cases h
          | some idx2 =>
            rw [h2] at h
            simp only [Option.some_bind] at h
            cases hb : readByte data idx2 with
            | none => rw [hb] at h; cases h
            | some b =>
              rw [hb] at h
              simp only [Option.some_bind] at h
              obtain ⟨e0, -, -⟩ := checkedInt_eq_some h0
              obtain ⟨e1, -, -⟩ := checkedInt_eq_some h1
              obtain ⟨e2, -, m2⟩ := checkedInt_eq_some h2
              obtain ⟨p0, q0⟩ := readByte_eq_some hr
              obtain ⟨p1, q1⟩ := readByte_eq_some hg
              obtain ⟨p2, q2⟩ := readByte_eq_some hb
              subst e0 e1 e2
              rw [toUChar_weightedSum] at h
              simp only [Option.some_bind] at h
              rw [writeByte_of_lt data _ _ p0 q0] at h
              simp only [Option.some_bind] at h
              rw [writeByte_of_lt _ _ _ p1 (by simpa using q1)] at h
              simp only [Option.some_bind] at h
              rw [writeByte_of_lt _ _ _ p2 (by simpa using q2)] at h
              have ho := Option.some.inj h
              subst ho
              refine ⟨p0, m2, q2, ?_⟩
              simp

theorem pixel_index_iff (c i k : Nat) (hc : 3 ≤ c) :
    (k / c = i ∧ k % c < 3) ↔ (k = i * c ∨ k = i * c + 1 ∨ k = i * c + 2) := by
  have hpos : 0 < c := by omega
  constructor
  · rintro ⟨h1, h2⟩
    have := Nat.div_add_mod k c
    rw [h1, Nat.mul_comm] at this
    omega
  · intro h
    have key : ∀ j, j < 3 → k = i * c + j → k / c = i ∧ k % c < 3 := by
      intro j hj hk
      have hjc : j < c := by omega
      subst hk
      constructor
      · rw [Nat.add_comm, Nat.add_mul_div_right _ _ hpos, Nat.div_eq_of_lt hjc]
        omega
      · rw [Nat.add_comm, Nat.add_mul_mod_self_right, Nat.mod_eq_of_lt hjc]
        exact hj
    rcases h with h | h | h
    · exact key 0 (by omega) (by omega)
    · exact key 1 (by omega) h
    · exact key 2 (by omega) h

theorem length_grayStep (c : Nat) (data : List Byte) (i : Nat) :
    (grayStep c data i).length = data.length := by
  simp [grayStep]

theorem grayStep_getElem? (c i k : Nat) (data : List Byte) (hc : 3 ≤ c)
    (hin : i * c + 2 < data.length) :
    (grayStep c data i)[k]? =
      if k / c = i ∧ k % c < 3 then some (pixelLum c data i) else data[k]? := by
  have hiff := pixel_index_iff c i k hc
  unfold grayStep
  simp only [List.getElem?_set, List.length_set]
  by_cases hk : k / c = i ∧ k % c < 3
  · rw [if_pos hk]
    rcases hiff.mp hk with h | h | h
    · subst h
      rw [if_neg (by omega), if_neg (by omega), if_pos rfl, if_pos (by omega)]
    · subst h
      rw [if_neg (by omega), if_pos rfl, if_pos (by omega)]
    · subst h
      rw [if_pos rfl, if_pos (by omega)]
  · rw [if_neg hk]
    have hne : ¬ (k = i * c ∨ k = i * c + 1 ∨ k = i * c + 2) := fun h => hk (hiff.mpr h)
    rw [if_neg (by omega), if_neg (by omega), if_neg (by omega)]

theorem pixelLum_grayStep_ne (c i j : Nat) (data : List Byte) (hc : 3 ≤ c)
    (hin : i * c + 2 < data.length) (hne : j ≠ i) :
    pixelLum c (grayStep c data i) j = pixelLum c data j := by
  have h0 := (pixel_index_iff c j (j * c) hc).mpr (Or.inl rfl)
  have h1 := (pixel_index_iff c j (j * c + 1) hc).mpr (Or.inr (Or.inl rfl))
  have h2 := (pixel_index_iff c j (j * c + 2) hc).mpr (Or.inr (Or.inr rfl))
  unfold pixelLum
  simp only [List.getD_eq_getElem?_getD]
  rw [grayStep_getElem? c i _ data hc hin, grayStep_getElem? c i _ data hc hin,
    grayStep_getElem? c i _ data hc hin]
  rw [if_neg (by rw [h0.1]; exact fun h => hne h.1),
    if_neg (by rw [h1.1]; exact fun h => hne h.1),
    if_neg (by rw [h2.1]; exact fun h => hne h.1)]

theorem length_foldl_grayStep (c : Nat) (l : List Nat) :
    ∀ data : List Byte, (l.foldl (grayStep c) data).length = data.length := by
  induction l with
  | nil => intro data; rfl
  | cons i l ih =>
    intro data
    rw [List.foldl_cons, ih, length_grayStep]

theorem foldl_grayStep_getElem? (c : Nat) (hc : 3 ≤ c) (l : List Nat) :
    ∀ (data : List Byte), l.Nodup → (∀ i ∈ l, i * c + 2 < data.length) → ∀ k : Nat,
      (l.foldl (grayStep c) data)[k]? =
        if k / c ∈ l ∧ k % c < 3 then some (pixelLum c data (k / c)) else data[k]? := by
  induction l with
  | nil => intro data _ _ k; simp
  | cons i l ih =>
    intro data hnd hin k
    have hi : i * c + 2 < data.length := hin i (List.mem_cons_self _ _)
    have hnd2 := List.nodup_cons.mp hnd
    rw [List.foldl_cons, ih (grayStep c data i) hnd2.2
      (fun j hj => by rw [length_grayStep]; exact hin j (List.mem_cons_of_mem _ hj)) k]
    by_cases h1 : k / c ∈ l ∧ k % c < 3
    · have hne : k / c ≠ i := fun h => hnd2.1 (h ▸ h1.1)
      rw [if_pos h1, if_pos ⟨List.mem_cons_of_mem _ h1.1, h1.2⟩,
        pixelLum_grayStep_ne c i _ data hc hi hne]
    · rw [if_neg h1, grayStep_getElem? c i k data hc hi]
      by_cases h2 : k / c = i ∧ k % c < 3
      · rw [if_pos h2, if_pos ⟨by rw [h2.1]; exact List.mem_cons_self _ _, h2.2⟩, h2.1]
      · rw [if_neg h2, if_neg]
        rintro ⟨hm, hlt⟩
        rcases List.mem_cons.mp hm with h | h
        · exact h2 ⟨h, hlt⟩
        · exact h1 ⟨h, hlt⟩

theorem Containers.run_pixels_eq (c : Nat) (l : List Nat) :
    ∀ (data : List Byte), (∀ i ∈ l, i * c + 2 < data.length) →
      (data.length : Int) ≤ INT_MAX →
      Containers.run_pixels (c : Int) l data = some (l.foldl (grayStep c) data) := by
  induction l with
  | nil => intro data _ _; rfl
  | cons i l ih =>
    intro data hin hfit
    have hi : i * c + 2 < data.length := hin i (List.mem_cons_self _ _)
    unfold Containers.run_pixels
    rw [List.foldlM_cons, Containers.pixelBody_natCast c i data hi hfit]
    simp only [Option.bind_eq_bind, Option.some_bind, List.foldl_cons]
    exact ih (grayStep c data i)
      (fun j hj => by rw [length_grayStep]; exact hin j (List.mem_cons_of_mem _ hj))
      (by rw [length_grayStep]; exact hfit)

theorem Hybrid.run_pixels_agrees (channels : Int) (l : List Nat) (data : List Byte) :
    Hybrid.run_pixels channels l data = Containers.run_pixels channels l data := by
  unfold Hybrid.run_pixels Containers.run_pixels
  congr 1
  funext d i
  exact Hybrid.pixelBody_agrees channels d i

theorem Hybrid.convert_agrees (data : List Byte) (width height channels : Int) :
    Hybrid.convert_to_grayscale data width height channels =
      Containers.convert_to_grayscale data width height channels := by
  unfold Hybrid.convert_to_grayscale Containers.convert_to_grayscale
  simp only [Hybrid.run_pixels_agrees]

/-- With at least three bytes per pixel the iterations touch disjoint bytes. -/
theorem raceFree_of_three_le (c n : Nat) (hc : 3 ≤ c) : RaceFree (c : Int) n := by
  intro i _ j _ hne a ha hb
  simp only [touched, List.mem_cons, List.mem_singleton, List.not_mem_nil, or_false] at ha hb
  have key : ∀ x y : Nat, x < 3 → y < 3 →
      (i : Int) * (c : Int) + (x : Int) = (j : Int) * (c : Int) + (y : Int) → False := by
    intro x y hx hy h
    have h2 : i * c + x = j * c + y := by exact_mod_cast h
    rcases Nat.lt_or_gt_of_ne hne with hlt | hgt
    · have h3 : (i + 1) * c ≤ j * c := Nat.mul_le_mul_right c hlt
      have h4 : (i + 1) * c = i * c + c := by ring
      omega
    · have h3 : (j + 1) * c ≤ i * c := Nat.mul_le_mul_right c hgt
      have h4 : (j + 1) * c = j * c + c := by ring
      omega
  rcases ha with ha | ha | ha <;> rcases hb with hb | hb | hb <;> subst ha
  · exact key 0 0 (by omega) (by omega) (by simpa using hb)
  · exact key 0 1 (by omega) (by omega) (by simpa using hb)
  · exact key 0 2 (by omega) (by omega) (by simpa using hb)
  · exact key 1 0 (by omega) (by omega) (by simpa using hb)
  · exact key 1 1 (by omega) (by omega) (by simpa using hb)
  · exact key 1 2 (by omega) (by omega) (by simpa using hb)
  · exact key 2 0 (by omega) (by omega) (by simpa using hb)
  · exact key 2 1 (by omega) (by omega) (by simpa using hb)
  · exact key 2 2 (by omega) (by omega) (by simpa using hb)

theorem raceFree_zero (channels : Int) : RaceFree channels 0 := by
  intro i hi
  omega

/-- The run on a buffer that holds at least `n * c` bytes, `n = width * height`
pixels of `c ≥ 3` bytes. -/
theorem Containers.convert_eq (c n : Nat) (data : List Byte) (width height : Int)
    (hn : width * height = (n : Int)) (hlen : n * c ≤ data.length) (hc : 3 ≤ c)
    (hfit : (data.length : Int) ≤ INT_MAX) :
    Containers.convert_to_grayscale data width height (c : Int) =
      some ((List.range n).foldl (grayStep c) data) := by
  have hnc : n ≤ n * c := Nat.le_mul_of_pos_right n (by omega)
  unfold Containers.convert_to_grayscale
  rw [hn, checkedInt_natCast n (by omega)]
  simp only [Option.bind_eq_bind, Option.some_bind, Int.toNat_ofNat]
  rw [if_pos (raceFree_of_three_le c n hc)]
  apply Containers.run_pixels_eq c _ data _ hfit
  intro i hi
  have hi2 : i + 1 ≤ n := by simpa [List.mem_range] using hi
  have : (i + 1) * c ≤ n * c := Nat.mul_le_mul_right c hi2
  have : (i + 1) * c = i * c + c := by ring
  omega

theorem valid_setup (data : List Byte) (width height channels : Int) (hc : 3 ≤ channels)
    (hlen : (data.length : Int) = width * height * channels) :
    ∃ c n : Nat, channels = (c : Int) ∧ 3 ≤ c ∧ width * height = (n : Int) ∧
      data.length = n * c := by
  have hwh : 0 ≤ width * height := by
    by_contra hneg
    have h1 : width * height ≤ -1 := by omega
    have h2 : width * height * channels ≤ -1 * channels :=
      Int.mul_le_mul_of_nonneg_right h1 (by omega)
    omega
  refine ⟨channels.toNat, (width * height).toNat, ?_, ?_, ?_, ?_⟩
  · omega
  · omega
  · omega
  · have e1 : ((channels.toNat : Nat) : Int) = channels := Int.toNat_of_nonneg (by omega)
    have e2 : (((width * height).toNat : Nat) : Int) = width * height := Int.toNat_of_nonneg hwh
    have : ((data.length : Nat) : Int) = (((width * height).toNat * channels.toNat : Nat) : Int) := by
      push_cast
      rw [e1, e2]
      exact hlen
    exact_mod_cast this

/-- The buffer the run leaves: every pixel slot below `n` has its three leading
bytes replaced by the luminance of the pixel, every other byte is kept. -/
theorem Containers.convert_spec (c n : Nat) (data : List Byte) (width height : Int)
    (hn : width * height = (n : Int)) (hlen : n * c ≤ data.length) (hc : 3 ≤ c)
    (hfit : (data.length : Int) ≤ INT_MAX) :
    ∃ out, Containers.convert_to_grayscale data width height (c : Int) = some out ∧
      out.length = data.length ∧
      ∀ k : Nat, out[k]? =
        if k / c < n ∧ k % c < 3 then some (pixelLum c data (k / c)) else data[k]? := by
  refine ⟨_, Containers.convert_eq c n data width height hn hlen hc hfit,
    length_foldl_grayStep c _ data, ?_⟩
  intro k
  have hin : ∀ i ∈ List.range n, i * c + 2 < data.length := by
    intro i hi
    have hi2 : i + 1 ≤ n := by simpa [List.mem_range] using hi
    have : (i + 1) * c ≤ n * c := Nat.mul_le_mul_right c hi2
    have : (i + 1) * c = i * c + c := by ring
    omega
  rw [foldl_grayStep_getElem? c hc _ data (List.nodup_range n) hin k]
  simp only [List.mem_range]

theorem Containers.run_pixels_some {channels : Int} (l : List Nat) :
    ∀ {data out : List Byte}, Containers.run_pixels channels l data = some out →
      out.length = data.length ∧ ∀ i ∈ l, 0 ≤ (i : Int) * channels ∧
        (i : Int) * channels + 2 ≤ INT_MAX ∧
        ((i : Int) * channels + 2).toNat < data.length := by
  induction l with
  | nil =>
    intro data out h
    have : out = data := (Option.some.inj h).symm
    subst this
    exact ⟨rfl, fun i hi => by cases hi⟩
  | cons j l ih =>
    intro data out h
    unfold Containers.run_pixels at h
    rw [List.foldlM_cons] at h
    cases hb : Containers.pixelBody channels data (j : Int) with
    | none => rw [hb] at h; cases h
    | some d =>
      rw [hb] at h
      simp only [Option.bind_eq_bind, Option.some_bind] at h
      obtain ⟨a1, a2, a3, a4⟩ := Containers.pixelBody_eq_some hb
      obtain ⟨b1, b2⟩ := ih h
      refine ⟨by rw [b1, a4], ?_⟩
      intro i hi
      rcases List.mem_cons.mp hi with rfl | hi
      · exact ⟨a1, a2, a3⟩
      · have := b2 i hi
        rw [a4] at this
        exact this

/-- The iterations run in index order reach an access outside the buffer when
the last pixel does not lie inside it. -/
theorem Containers.run_pixels_none (data : List Byte) (width height channels : Int)
    (hpos : 1 ≤ width * height)
    (hshort : (data.length : Int) ≤ (width * height - 1) * channels + 2) :
    Containers.run_pixels channels (List.range (width * height).toNat) data = none := by
  cases h : Containers.run_pixels channels (List.range (width * height).toNat) data with
  | none => rfl
  | some out =>
    exfalso
    obtain ⟨-, hall⟩ := Containers.run_pixels_some _ h
    have hmem : (width * height).toNat - 1 ∈ List.range (width * height).toNat := by
      rw [List.mem_range]; omega
    obtain ⟨a1, -, a3⟩ := hall _ hmem
    have e1 : (((width * height).toNat - 1 : Nat) : Int) = width * height - 1 := by omega
    rw [e1] at a1 a3
    omega

/-- A run in which the last pixel does not lie inside the buffer has no
defined result. -/
theorem Containers.convert_none (data : List Byte) (width height channels : Int)
    (hpos : 1 ≤ width * height)
    (hshort : (data.length : Int) ≤ (width * height - 1) * channels + 2) :
    Containers.convert_to_grayscale data width height channels = none := by
  unfold Containers.convert_to_grayscale
  cases h0 : checkedInt (width * height) with
  | none => rfl
  | some numPixels =>
    obtain ⟨e, -, -⟩ := checkedInt_eq_some h0
    subst e
    simp only [Option.bind_eq_bind, Option.some_bind]
    split
    · exact Containers.run_pixels_none data width height channels hpos hshort
    · rfl

theorem toNat_channels (c : Nat) : ((c : Int)).toNat = c := Int.toNat_ofNat c

/-- The three leading bytes of pixel `i < n` after the run hold the luminance
of the pixel before the run. -/
theorem pixel_after (c n : Nat) (data out : List Byte) (hc : 3 ≤ c)
    (hout : ∀ k : Nat, out[k]? =
      if k / c < n ∧ k % c < 3 then some (pixelLum c data (k / c)) else data[k]?)
    (i : Nat) (hi : i < n) :
    out[i * c]? = some (pixelLum c data i) ∧ out[i * c + 1]? = some (pixelLum c data i) ∧
      out[i * c + 2]? = some (pixelLum c data i) := by
  have h0 := (pixel_index_iff c i (i * c) hc).mpr (Or.inl rfl)
  have h1 := (pixel_index_iff c i (i * c + 1) hc).mpr (Or.inr (Or.inl rfl))
  have h2 := (pixel_index_iff c i (i * c + 2) hc).mpr (Or.inr (Or.inr rfl))
  refine ⟨?_, ?_, ?_⟩
  · rw [hout, if_pos ⟨by rw [h0.1]; exact hi, h0.2⟩, h0.1]
  · rw [hout, if_pos ⟨by rw [h1.1]; exact hi, h1.2⟩, h1.1]
  · rw [hout, if_pos ⟨by rw [h2.1]; exact hi, h2.2⟩, h2.1]

theorem pixel_in_bounds (c n i : Nat) (hi : i < n) (hc : 3 ≤ c) : i * c + 2 < n * c := by
  have : (i + 1) * c ≤ n * c := Nat.mul_le_mul_right c hi
  have : (i + 1) * c = i * c + c := by ring
  omega

set_option maxRecDepth 100000 in
theorem lum_gray_fixed :
    ∀ v : Byte, lum (lum v v v) (lum v v v) (lum v v v) = lum v v v := by
  decide

/-- The luminance of a pixel that a run has already rewritten. -/
theorem pixelLum_after (c n : Nat) (data out : List Byte) (hc : 3 ≤ c)
    (hout : ∀ k : Nat, out[k]? =
      if k / c < n ∧ k % c < 3 then some (pixelLum c data (k / c)) else data[k]?)
    (i : Nat) (hi : i < n) :
    pixelLum c out i =
      lum (pixelLum c data i) (pixelLum c data i) (pixelLum c data i) := by
  obtain ⟨a0, a1, a2⟩ := pixel_after c n data out hc hout i hi
  have e : pixelLum c out i =
      lum (out.getD (i * c) 0) (out.getD (i * c + 1) 0) (out.getD (i * c + 2) 0) := rfl
  rw [e]
  simp only [List.getD_eq_getElem?_getD]
  rw [a0, a1, a2]
  simp only [Option.getD_some]

set_option maxRecDepth 100000 in
theorem lum_gray_values :
    ∀ v : Byte, lum v v v =
      if v ∈ ([37, 61, 74, 93, 111, 122, 148, 186, 215, 222, 233, 244, 253] : List Byte)
      then v - 1 else v := by
  decide

/-! ## The claims -/

/-- C1, the claim as stated fails: on the one-pixel buffer `(8, 80, 32)` the
exact weighted sum is `2.392 + 46.960 + 3.648 = 53`, floor 53, and the kernel
writes 52.  In binary32 the products are `2.39199996`, `46.95999908` and
`3.64800000`, the first sum rounds to `49.35199738` and the second to
`52.99999619 = 53 - 2^-18`, which the conversion truncates. -/
theorem C1_exact_floor_counterexample :
    Containers.convert_to_grayscale [8, 80, 32] 1 1 3 = some [52, 52, 52] ∧
    Hybrid.convert_to_grayscale [8, 80, 32] 1 1 3 = some [52, 52, 52] ∧
    specLuminance 8 80 32 = 53 ∧
    (299 * 8 + 587 * 80 + 114 * 32 = 53 * 1000) ∧
    weightedSum 8 80 32 + 2 ^ 9 = 53 * F32_SCALE := by
  decide

/-- C1 (amended): for a buffer with `channels` in {3,4}, of length
`width*height*channels` that fits `int`, one call returns normally and for every
pixel `i < width*height` the bytes at `i*channels`, `i*channels+1`,
`i*channels+2` all equal the truncation of the binary32 value of
`0.299f*R + 0.587f*G + 0.114f*B`, with `R`, `G`, `B` the bytes of the pixel
before the call.  That byte is `floor(0.299*R + 0.587*G + 0.114*B)` or one less,
and it is the floor whenever the exact sum is not an integer. -/
theorem C1_luminance_written (data : List Byte) (width height channels : Int)
    (hc : channels = 3 ∨ channels = 4)
    (hlen : (data.length : Int) = width * height * channels)
    (hfit : (data.length : Int) ≤ INT_MAX) :
    ∃ out, Containers.convert_to_grayscale data width height channels = some out ∧
      Hybrid.convert_to_grayscale data width height channels = some out ∧
      ∀ i : Nat, (i : Int) < width * height →
        ∃ r g b : Byte,
          data[i * channels.toNat]? = some r ∧
          data[i * channels.toNat + 1]? = some g ∧
          data[i * channels.toNat + 2]? = some b ∧
          out[i * channels.toNat]? = some (lum r g b) ∧
          out[i * channels.toNat + 1]? = some (lum r g b) ∧
          out[i * channels.toNat + 2]? = some (lum r g b) ∧
          (lum r g b).val = weightedSum r g b / F32_SCALE ∧
          (lum r g b).val ≤ specLuminance r g b ∧
          specLuminance r g b ≤ (lum r g b).val + 1 ∧
          ((299 * r.val + 587 * g.val + 114 * b.val) % 1000 ≠ 0 →
            (lum r g b).val = specLuminance r g b) := by
  obtain ⟨c, n, rfl, hc3, hn, hl⟩ :=
    valid_setup data width height channels (by omega) hlen
  obtain ⟨out, ho, -, hout⟩ :=
    Containers.convert_spec c n data width height hn (by omega) hc3 hfit
  refine ⟨out, ho, by rw [Hybrid.convert_agrees]; exact ho, ?_⟩
  intro i hi
  have hin : i < n := by omega
  have hb := pixel_in_bounds c n i hin hc3
  obtain ⟨a0, a1, a2⟩ := pixel_after c n data out hc3 hout i hin
  rw [toNat_channels]
  obtain ⟨s1, s2, s3⟩ := lum_spec (data.getD (i * c) 0) (data.getD (i * c + 1) 0)
    (data.getD (i * c + 2) 0)
  exact ⟨data.getD (i * c) 0, data.getD (i * c + 1) 0, data.getD (i * c + 2) 0,
    getElem?_eq_some_getD (by omega), getElem?_eq_some_getD (by omega),
    getElem?_eq_some_getD (by omega), a0, a1, a2, lum_val _ _ _, s1, s2, s3⟩

/-- C2: for a 4-channel buffer of length `width*height*4` (that fits `int`) the
call returns normally with a buffer of the same length, the alpha byte at
`i*4+3` of every pixel `i` is the byte it was, and a byte that differs from the
input lies inside the buffer at an offset 0, 1 or 2 of its pixel. -/
theorem C2_alpha_preserved (data : List Byte) (width height : Int)
    (hlen : (data.length : Int) = width * height * 4)
    (hfit : (data.length : Int) ≤ INT_MAX) :
    ∃ out, Containers.convert_to_grayscale data width height 4 = some out ∧
      Hybrid.convert_to_grayscale data width height 4 = some out ∧
      out.length = data.length ∧
      (∀ i : Nat, (i : Int) < width * height →
        ∃ a : Byte, data[i * 4 + 3]? = some a ∧ out[i * 4 + 3]? = some a) ∧
      (∀ k : Nat, out[k]? ≠ data[k]? → k < data.length ∧ k % 4 < 3) := by
  obtain ⟨c, n, hc, hc3, hn, hl⟩ := valid_setup data width height 4 (by omega) hlen
  have hc4 : c = 4 := by omega
  subst hc4
  obtain ⟨out, ho, hlo, hout⟩ :=
    Containers.convert_spec 4 n data width height hn (by omega) hc3 hfit
  have ho4 : Containers.convert_to_grayscale data width height 4 = some out := ho
  refine ⟨out, ho4, by rw [Hybrid.convert_agrees]; exact ho4, hlo, ?_, ?_⟩
  · intro i hi
    have hin : i < n := by omega
    refine ⟨data.getD (i * 4 + 3) 0, getElem?_eq_some_getD (by omega), ?_⟩
    rw [hout, if_neg (by omega)]
    exact getElem?_eq_some_getD (by omega)
  · intro k hk
    rw [hout] at hk
    by_cases hcond : k / 4 < n ∧ k % 4 < 3
    · exact ⟨by omega, hcond.2⟩
    · rw [if_neg hcond] at hk
      exact absurd rfl hk

/-- C4: for a 3-channel buffer of length `width*height*3` (that fits `int`)
the call returns normally and every pixel `i < width*height` has its three bytes
equal to each other. -/
theorem C4_three_bytes_equal (data : List Byte) (width height : Int)
    (hlen : (data.length : Int) = width * height * 3)
    (hfit : (data.length : Int) ≤ INT_MAX) :
    ∃ out, Containers.convert_to_grayscale data width height 3 = some out ∧
      Hybrid.convert_to_grayscale data width height 3 = some out ∧
      ∀ i : Nat, (i : Int) < width * height →
        ∃ v : Byte, out[i * 3]? = some v ∧ out[i * 3 + 1]? = some v ∧
          out[i * 3 + 2]? = some v := by
  obtain ⟨c, n, hc, hc3, hn, hl⟩ := valid_setup data width height 3 (by omega) hlen
  have hc4 : c = 3 := by omega
  subst hc4
  obtain ⟨out, ho, -, hout⟩ :=
    Containers.convert_spec 3 n data width height hn (by omega) hc3 hfit
  have ho3 : Containers.convert_to_grayscale data width height 3 = some out := ho
  refine ⟨out, ho3, by rw [Hybrid.convert_agrees]; exact ho3, ?_⟩
  intro i hi
  exact ⟨pixelLum 3 data i, pixel_after 3 n data out hc3 hout i (by omega)⟩

/-- C7: a call with `width*height == 0` returns normally and leaves the buffer
byte for byte as it was, for channels 3 and 4 as for any other value. -/
theorem C7_empty_is_noop (data : List Byte) (width height channels : Int)
    (h0 : width * height = 0) :
    Containers.convert_to_grayscale data width height channels = some data ∧
    Hybrid.convert_to_grayscale data width height channels = some data := by
  have h : Containers.convert_to_grayscale data width height channels = some data := by
    unfold Containers.convert_to_grayscale
    rw [h0]
    show (if RaceFree channels 0 then
      Containers.run_pixels channels (List.range 0) data else none) = some data
    rw [if_pos (raceFree_zero channels)]
    rfl
  exact ⟨h, by rw [Hybrid.convert_agrees]; exact h⟩

/-- C8: for all bytes `r`, `g`, `b` the binary32 value of
`0.299f*r + 0.587f*g + 0.114f*b` is at least 0 and below 256, so the conversion
to `unsigned char` is defined and yields the integer part of the sum, a value in
`[0,255]`, without wrap-around. -/
theorem C8_weighted_sum_in_range (r g b : Byte) :
    0 ≤ weightedSum r g b ∧ weightedSum r g b < 256 * F32_SCALE ∧
    ∃ l : Byte, toUChar (weightedSum r g b) = some l ∧
      l.val = weightedSum r g b / F32_SCALE ∧ l.val ≤ 255 := by
  refine ⟨Nat.zero_le _, weightedSum_lt r g b, lum r g b, toUChar_weightedSum r g b,
    lum_val r g b, ?_⟩
  have := (lum r g b).isLt
  omega

theorem Containers.pass_loop_fixed (out : List Byte) (width height channels : Int)
    (hfix : Containers.convert_to_grayscale out width height channels = some out) :
    ∀ N : Nat, Containers.pass_loop N out width height channels = some out := by
  intro N
  induction N with
  | zero => rfl
  | succ N ih =>
    show (Containers.convert_to_grayscale out width height channels).bind
      (fun img1 => Containers.pass_loop N img1 width height channels) = some out
    rw [hfix]
    exact ih

/-- C3, the claim as stated fails: the pixel `(38, 37, 36)` becomes
`(37, 37, 37)` after one pass and `(36, 36, 36)` after two, because the kernel
computes the luminance 36 for the gray pixel `(37, 37, 37)`.  In binary32 the
products are `11.06299973`, `21.71899986` and `4.21799994`, the first sum rounds
to `32.78199768` and the second to `36.99999619 = 37 - 2^-18`. -/
theorem C3_second_pass_counterexample :
    Containers.pass_loop 1 [38, 37, 36] 1 1 3 = some [37, 37, 37] ∧
    Containers.pass_loop 2 [38, 37, 36] 1 1 3 = some [36, 36, 36] ∧
    Containers.convert_to_grayscale [37, 37, 37] 1 1 3 = some [36, 36, 36] ∧
    lum 37 37 37 = 36 ∧
    weightedSum 37 37 37 + 2 ^ 9 = 37 * F32_SCALE := by
  decide

/-- C3 (amended): for a buffer with `channels` in {3,4}, of length
`width*height*channels` that fits `int`, every number `N ≥ 2` of passes yields
byte for byte the buffer of two passes, which a further call leaves unchanged;
the first pass alone can differ from it, because the kernel's luminance of a
gray pixel `(v,v,v)` is `v` except for the thirteen values 37, 61, 74, 93, 111,
122, 148, 186, 215, 222, 233, 244 and 253, where it is `v - 1`. -/
theorem C3_passes_stabilise (data : List Byte) (width height channels : Int)
    (hc : channels = 3 ∨ channels = 4)
    (hlen : (data.length : Int) = width * height * channels)
    (hfit : (data.length : Int) ≤ INT_MAX) :
    ∃ out, Containers.pass_loop 2 data width height channels = some out ∧
      (∀ N : Nat, 2 ≤ N → Containers.pass_loop N data width height channels = some out) ∧
      Containers.convert_to_grayscale out width height channels = some out ∧
      ∀ v : Byte, lum v v v =
        if v ∈ ([37, 61, 74, 93, 111, 122, 148, 186, 215, 222, 233, 244, 253] : List Byte)
        then v - 1 else v := by
  obtain ⟨c, n, rfl, hc3, hn, hl⟩ :=
    valid_setup data width height channels (by omega) hlen
  obtain ⟨out1, ho1, hl1, hout1⟩ :=
    Containers.convert_spec c n data width height hn (by omega) hc3 hfit
  obtain ⟨out2, ho2, hl2, hout2⟩ :=
    Containers.convert_spec c n out1 width height hn (by omega) hc3 (by omega)
  obtain ⟨out3, ho3, hl3, hout3⟩ :=
    Containers.convert_spec c n out2 width height hn (by omega) hc3 (by omega)
  have h32 : out3 = out2 := by
    apply List.ext_getElem?
    intro k
    rw [hout3]
    by_cases hcond : k / c < n ∧ k % c < 3
    · rw [if_pos hcond, hout2, if_pos hcond,
        pixelLum_after c n out1 out2 hc3 hout2 _ hcond.1,
        pixelLum_after c n data out1 hc3 hout1 _ hcond.1, lum_gray_fixed]
    · rw [if_neg hcond]
  rw [h32] at ho3
  have hstep : ∀ (N : Nat) (img img1 : List Byte),
      Containers.convert_to_grayscale img width height (c : Int) = some img1 →
      Containers.pass_loop (N + 1) img width height (c : Int) =
        Containers.pass_loop N img1 width height (c : Int) := by
    intro N img img1 h
    show (Containers.convert_to_grayscale img width height (c : Int)).bind
      (fun d => Containers.pass_loop N d width height (c : Int)) = _
    rw [h]
    rfl
  have hall : ∀ M : Nat, Containers.pass_loop (M + 2) data width height (c : Int) = some out2 := by
    intro M
    rw [hstep (M + 1) data out1 ho1, hstep M out1 out2 ho2]
    exact Containers.pass_loop_fixed out2 width height c ho3 M
  refine ⟨out2, hall 0, ?_, ho3, lum_gray_values⟩
  intro N hN
  obtain ⟨M, rfl⟩ : ∃ M, N = M + 2 := ⟨N - 2, by omega⟩
  exact hall M

/-- C5, the claim as stated fails: the kernel neither checks nor reports
anything.  With `channels = 5` it returns normally and has rewritten bytes; with
a buffer of 13 bytes for `2*2*3 = 12` it returns normally; with a buffer of 11
bytes for `2*2*3` it rewrites the pixels 0, 1 and 2 and then reads index 11,
outside the buffer. -/
theorem C5_no_validation_counterexample :
    Containers.convert_to_grayscale [10, 20, 30, 40, 50] 1 1 5 = some [18, 18, 18, 40, 50] ∧
    Hybrid.convert_to_grayscale [10, 20, 30, 40, 50] 1 1 5 = some [18, 18, 18, 40, 50] ∧
    Containers.convert_to_grayscale [10, 20, 30, 10, 20, 30, 10, 20, 30, 10, 20, 30, 7] 2 2 3
      = some [18, 18, 18, 18, 18, 18, 18, 18, 18, 18, 18, 18, 7] ∧
    Containers.run_pixels 3 [0, 1, 2] [10, 20, 30, 10, 20, 30, 10, 20, 30, 10, 20]
      = some [18, 18, 18, 18, 18, 18, 18, 18, 18, 10, 20] ∧
    readByte [18, 18, 18, 18, 18, 18, 18, 18, 18, 10, 20] (3 * 3 + 2) = none ∧
    Containers.convert_to_grayscale [10, 20, 30, 10, 20, 30, 10, 20, 30, 10, 20] 2 2 3 = none := by
  decide

/-- C5 (amended): the kernel validates nothing and has no error result.  For
`channels ≥ 3` and a buffer of at least `width*height*channels` bytes (that fits
`int`) the call returns normally, whatever the length and the channel count:
the length is kept and every byte from `width*height*channels` on is unchanged.
When the three bytes of the last pixel do not lie inside the buffer the run
leaves the buffer (undefined behaviour), which no check prevents: already the
iterations taken in index order reach an access outside it. -/
theorem C5_no_validation :
    (∀ (data : List Byte) (width height channels : Int),
      3 ≤ channels → 0 ≤ width * height →
      width * height * channels ≤ (data.length : Int) →
      (data.length : Int) ≤ INT_MAX →
      ∃ out, Containers.convert_to_grayscale data width height channels = some out ∧
        Hybrid.convert_to_grayscale data width height channels = some out ∧
        out.length = data.length ∧
        ∀ k : Nat, width * height * channels ≤ (k : Int) → out[k]? = data[k]?) ∧
    (∀ (data : List Byte) (width height channels : Int),
      1 ≤ width * height →
      (data.length : Int) ≤ (width * height - 1) * channels + 2 →
      Containers.convert_to_grayscale data width height channels = none ∧
        Hybrid.convert_to_grayscale data width height channels = none ∧
        Containers.run_pixels channels (List.range (width * height).toNat) data = none) := by
  constructor
  · intro data width height channels hc hwh hlen hfit
    obtain ⟨c, rfl⟩ : ∃ c : Nat, channels = (c : Int) := ⟨channels.toNat, by omega⟩
    obtain ⟨n, hn⟩ : ∃ n : Nat, width * height = (n : Int) :=
      ⟨(width * height).toNat, by omega⟩
    rw [hn] at hlen
    have hl : n * c ≤ data.length := by exact_mod_cast hlen
    obtain ⟨out, ho, hlo, hout⟩ :=
      Containers.convert_spec c n data width height hn hl (by omega) hfit
    refine ⟨out, ho, by rw [Hybrid.convert_agrees]; exact ho, hlo, ?_⟩
    intro k hk
    rw [hn] at hk
    have hk2 : n * c ≤ k := by exact_mod_cast hk
    have hdiv : n ≤ k / c := (Nat.le_div_iff_mul_le (by omega)).mpr hk2
    rw [hout, if_neg (by omega)]
  · intro data width height channels hpos hshort
    have h := Containers.convert_none data width height channels hpos hshort
    exact ⟨h, by rw [Hybrid.convert_agrees]; exact h,
      Containers.run_pixels_none data width height channels hpos hshort⟩

/-- C6: for a buffer with `channels` in {3,4}, of length
`width*height*channels` that fits `int`, the loop body applied over any
permutation of the pixel indices `0 .. width*height-1` returns normally with
byte for byte the buffer of the sequential run from 0. -/
theorem C6_order_independent (data : List Byte) (width height channels : Int)
    (hc : channels = 3 ∨ channels = 4)
    (hlen : (data.length : Int) = width * height * channels)
    (hfit : (data.length : Int) ≤ INT_MAX)
    (order : List Nat) (hperm : order.Perm (List.range (width * height).toNat)) :
    ∃ out, Containers.convert_to_grayscale data width height channels = some out ∧
      Containers.run_pixels channels order data = some out ∧
      Hybrid.convert_to_grayscale data width height channels = some out ∧
      Hybrid.run_pixels channels order data = some out := by
  obtain ⟨c, n, rfl, hc3, hn, hl⟩ :=
    valid_setup data width height channels (by omega) hlen
  have hnn : (width * height).toNat = n := by omega
  rw [hnn] at hperm
  have ho := Containers.convert_eq c n data width height hn (by omega) hc3 hfit
  have hin : ∀ i ∈ List.range n, i * c + 2 < data.length := by
    intro i hi
    have := pixel_in_bounds c n i (List.mem_range.mp hi) hc3
    omega
  have hin2 : ∀ i ∈ order, i * c + 2 < data.length :=
    fun i hi => hin i (hperm.mem_iff.mp hi)
  have hr := Containers.run_pixels_eq c order data hin2 hfit
  have heq : order.foldl (grayStep c) data = (List.range n).foldl (grayStep c) data := by
    apply List.ext_getElem?
    intro k
    rw [foldl_grayStep_getElem? c hc3 order data
        (hperm.nodup_iff.mpr (List.nodup_range n)) hin2 k,
      foldl_grayStep_getElem? c hc3 _ data (List.nodup_range n) hin k]
    simp only [hperm.mem_iff]
  rw [heq] at hr
  exact ⟨_, ho, hr, by rw [Hybrid.convert_agrees]; exact ho,
    by rw [Hybrid.run_pixels_agrees]; exact hr⟩

/-- C10: with `channels ≥ 3`, `width, height ≥ 0` and a buffer of length
`width*height*channels` that fits `int` (no overflow), every index the kernel
uses, `i*channels .. i*channels+2` for `0 ≤ i < width*height`, lies inside the
buffer and the run returns normally; with `channels` 1 or 2 and
`width*height ≥ 1` the index `i*channels+2` of the last pixel is not below the
length `width*height*channels`, and the run leaves the buffer, already with
the iterations taken in index order. -/
theorem C10_access_bounds :
    (∀ (data : List Byte) (width height channels : Int),
      3 ≤ channels → 0 ≤ width → 0 ≤ height →
      (data.length : Int) = width * height * channels →
      (data.length : Int) ≤ INT_MAX →
      (∀ i : Int, 0 ≤ i → i < width * height →
        0 ≤ i * channels ∧ i * channels + 2 < (data.length : Int) ∧
        i * channels + 2 ≤ INT_MAX) ∧
      ∃ out, Containers.convert_to_grayscale data width height channels = some out ∧
        Hybrid.convert_to_grayscale data width height channels = some out) ∧
    (∀ (data : List Byte) (width height channels : Int),
      (channels = 1 ∨ channels = 2) → 1 ≤ width * height →
      (data.length : Int) = width * height * channels →
      (data.length : Int) ≤ (width * height - 1) * channels + 2 ∧
      Containers.convert_to_grayscale data width height channels = none ∧
        Hybrid.convert_to_grayscale data width height channels = none ∧
        Containers.run_pixels channels (List.range (width * height).toNat) data = none) := by
  constructor
  · intro data width height channels hc hw hh hlen hfit
    constructor
    · intro i hi0 hi
      have h1 : (i + 1) * channels ≤ width * height * channels :=
        Int.mul_le_mul_of_nonneg_right (by omega) (by omega)
      have h2 : (i + 1) * channels = i * channels + channels := by ring
      have h3 : 0 ≤ i * channels := Int.mul_nonneg hi0 (by omega)
      refine ⟨h3, by omega, by omega⟩
    · obtain ⟨c, n, rfl, hc3, hn, hl⟩ := valid_setup data width height channels hc hlen
      obtain ⟨out, ho, -, -⟩ :=
        Containers.convert_spec c n data width height hn (by omega) hc3 hfit
      exact ⟨out, ho, by rw [Hybrid.convert_agrees]; exact ho⟩
  · intro data width height channels hc hpos hlen
    have hshort : (data.length : Int) ≤ (width * height - 1) * channels + 2 := by
      have : (width * height - 1) * channels = width * height * channels - channels := by ring
      omega
    have h := Containers.convert_none data width height channels hpos hshort
    exact ⟨hshort, h, by rw [Hybrid.convert_agrees]; exact h,
      Containers.run_pixels_none data width height channels hpos hshort⟩

/-! ## The theorems at concrete buffers -/

/-- C1 at the one-pixel buffer `(10, 20, 30)`, which becomes `(18, 18, 18)`. -/
theorem C1_luminance_written_witness :
    ((3 : Int) = 3 ∨ (3 : Int) = 4) ∧
    ((([10, 20, 30] : List Byte).length : Int) = 1 * 1 * 3) ∧
    ((([10, 20, 30] : List Byte).length : Int) ≤ INT_MAX) ∧
    Containers.convert_to_grayscale [10, 20, 30] 1 1 3 = some [18, 18, 18] ∧
    specLuminance 10 20 30 = 18 ∧
    ∃ out, Containers.convert_to_grayscale [10, 20, 30] 1 1 3 = some out ∧
      Hybrid.convert_to_grayscale [10, 20, 30] 1 1 3 = some out ∧
      ∀ i : Nat, (i : Int) < 1 * 1 →
        ∃ r g b : Byte,
          ([10, 20, 30] : List Byte)[i * (3 : Int).toNat]? = some r ∧
          ([10, 20, 30] : List Byte)[i * (3 : Int).toNat + 1]? = some g ∧
          ([10, 20, 30] : List Byte)[i * (3 : Int).toNat + 2]? = some b ∧
          out[i * (3 : Int).toNat]? = some (lum r g b) ∧
          out[i * (3 : Int).toNat + 1]? = some (lum r g b) ∧
          out[i * (3 : Int).toNat + 2]? = some (lum r g b) ∧
          (lum r g b).val = weightedSum r g b / F32_SCALE ∧
          (lum r g b).val ≤ specLuminance r g b ∧
          specLuminance r g b ≤ (lum r g b).val + 1 ∧
          ((299 * r.val + 587 * g.val + 114 * b.val) % 1000 ≠ 0 →
            (lum r g b).val = specLuminance r g b) :=
  ⟨by decide, by decide, by decide, by decide, by decide,
    C1_luminance_written [10, 20, 30] 1 1 3 (by decide) (by decide) (by decide)⟩

/-- C2 at the one-pixel buffer `(100, 150, 200, 255)`, which becomes
`(140, 140, 140, 255)`. -/
theorem C2_alpha_preserved_witness :
    ((([100, 150, 200, 255] : List Byte).length : Int) = 1 * 1 * 4) ∧
    ((([100, 150, 200, 255] : List Byte).length : Int) ≤ INT_MAX) ∧
    Containers.convert_to_grayscale [100, 150, 200, 255] 1 1 4
      = some [140, 140, 140, 255] ∧
    ∃ out, Containers.convert_to_grayscale [100, 150, 200, 255] 1 1 4 = some out ∧
      Hybrid.convert_to_grayscale [100, 150, 200, 255] 1 1 4 = some out ∧
      out.length = ([100, 150, 200, 255] : List Byte).length ∧
      (∀ i : Nat, (i : Int) < 1 * 1 →
        ∃ a : Byte, ([100, 150, 200, 255] : List Byte)[i * 4 + 3]? = some a ∧
          out[i * 4 + 3]? = some a) ∧
      (∀ k : Nat, out[k]? ≠ ([100, 150, 200, 255] : List Byte)[k]? →
        k < ([100, 150, 200, 255] : List Byte).length ∧ k % 4 < 3) :=
  ⟨by decide, by decide, by decide,
    C2_alpha_preserved [100, 150, 200, 255] 1 1 (by decide) (by decide)⟩

/-- C3 at the one-pixel buffer `(38, 37, 36)`: two passes and five passes both
end in `(36, 36, 36)`. -/
theorem C3_passes_stabilise_witness :
    ((3 : Int) = 3 ∨ (3 : Int) = 4) ∧
    ((([38, 37, 36] : List Byte).length : Int) = 1 * 1 * 3) ∧
    ((([38, 37, 36] : List Byte).length : Int) ≤ INT_MAX) ∧
    Containers.pass_loop 5 [38, 37, 36] 1 1 3 = some [36, 36, 36] ∧
    ∃ out, Containers.pass_loop 2 [38, 37, 36] 1 1 3 = some out ∧
      (∀ N : Nat, 2 ≤ N → Containers.pass_loop N [38, 37, 36] 1 1 3 = some out) ∧
      Containers.convert_to_grayscale out 1 1 3 = some out ∧
      ∀ v : Byte, lum v v v =
        if v ∈ ([37, 61, 74, 93, 111, 122, 148, 186, 215, 222, 233, 244, 253] : List Byte)
        then v - 1 else v :=
  ⟨by decide, by decide, by decide, by decide,
    C3_passes_stabilise [38, 37, 36] 1 1 3 (by decide) (by decide) (by decide)⟩

/-- C4 at the two-pixel buffer `(10, 20, 30, 200, 100, 50)`. -/
theorem C4_three_bytes_equal_witness :
    ((([10, 20, 30, 200, 100, 50] : List Byte).length : Int) = 2 * 1 * 3) ∧
    ((([10, 20, 30, 200, 100, 50] : List Byte).length : Int) ≤ INT_MAX) ∧
    ∃ out, Containers.convert_to_grayscale [10, 20, 30, 200, 100, 50] 2 1 3 = some out ∧
      Hybrid.convert_to_grayscale [10, 20, 30, 200, 100, 50] 2 1 3 = some out ∧
      ∀ i : Nat, (i : Int) < 2 * 1 →
        ∃ v : Byte, out[i * 3]? = some v ∧ out[i * 3 + 1]? = some v ∧
          out[i * 3 + 2]? = some v :=
  ⟨by decide, by decide,
    C4_three_bytes_equal [10, 20, 30, 200, 100, 50] 2 1 (by decide) (by decide)⟩

/-- C5 at a 5-channel pixel, which the kernel converts, and at the buffer of 11
bytes for `2*2*3`, which it overruns. -/
theorem C5_no_validation_witness :
    ((3 : Int) ≤ 5 ∧ (0 : Int) ≤ 1 * 1 ∧
      (1 : Int) * 1 * 5 ≤ (([10, 20, 30, 40, 50] : List Byte).length : Int) ∧
      (([10, 20, 30, 40, 50] : List Byte).length : Int) ≤ INT_MAX) ∧
    (∃ out, Containers.convert_to_grayscale [10, 20, 30, 40, 50] 1 1 5 = some out ∧
      Hybrid.convert_to_grayscale [10, 20, 30, 40, 50] 1 1 5 = some out ∧
      out.length = ([10, 20, 30, 40, 50] : List Byte).length ∧
      ∀ k : Nat, (1 : Int) * 1 * 5 ≤ (k : Int) →
        out[k]? = ([10, 20, 30, 40, 50] : List Byte)[k]?) ∧
    ((1 : Int) ≤ 2 * 2 ∧
      (([10, 20, 30, 10, 20, 30, 10, 20, 30, 10, 20] : List Byte).length : Int)
        ≤ (2 * 2 - 1) * 3 + 2) ∧
    (Containers.convert_to_grayscale [10, 20, 30, 10, 20, 30, 10, 20, 30, 10, 20] 2 2 3 = none ∧
      Hybrid.convert_to_grayscale [10, 20, 30, 10, 20, 30, 10, 20, 30, 10, 20] 2 2 3 = none ∧
      Containers.run_pixels 3 (List.range ((2 : Int) * 2).toNat)
        [10, 20, 30, 10, 20, 30, 10, 20, 30, 10, 20] = none) :=
  ⟨⟨by decide, by decide, by decide, by decide⟩,
    C5_no_validation.1 [10, 20, 30, 40, 50] 1 1 5 (by decide) (by decide) (by decide)
      (by decide),
    ⟨by decide, by decide⟩,
    C5_no_validation.2 [10, 20, 30, 10, 20, 30, 10, 20, 30, 10, 20] 2 2 3 (by decide)
      (by decide)⟩

/-- C6 at a three-pixel buffer processed in the order 2, 0, 1. -/
theorem C6_order_independent_witness :
    ((3 : Int) = 3 ∨ (3 : Int) = 4) ∧
    ((([10, 20, 30, 200, 100, 50, 38, 37, 36] : List Byte).length : Int) = 3 * 1 * 3) ∧
    ((([10, 20, 30, 200, 100, 50, 38, 37, 36] : List Byte).length : Int) ≤ INT_MAX) ∧
    ([2, 0, 1] : List Nat).Perm (List.range ((3 : Int) * 1).toNat) ∧
    ∃ out, Containers.convert_to_grayscale [10, 20, 30, 200, 100, 50, 38, 37, 36] 3 1 3
        = some out ∧
      Containers.run_pixels 3 [2, 0, 1] [10, 20, 30, 200, 100, 50, 38, 37, 36] = some out ∧
      Hybrid.convert_to_grayscale [10, 20, 30, 200, 100, 50, 38, 37, 36] 3 1 3 = some out ∧
      Hybrid.run_pixels 3 [2, 0, 1] [10, 20, 30, 200, 100, 50, 38, 37, 36] = some out :=
  ⟨by decide, by decide, by decide, by decide,
    C6_order_independent [10, 20, 30, 200, 100, 50, 38, 37, 36] 3 1 3 (by decide)
      (by decide) (by decide) [2, 0, 1] (by decide)⟩

/-- C7 at a call with `width = 0`, `height = 5` on a buffer of three bytes. -/
theorem C7_empty_is_noop_witness :
    ((0 : Int) * 5 = 0) ∧
    Containers.convert_to_grayscale [1, 2, 3] 0 5 3 = some [1, 2, 3] ∧
    Hybrid.convert_to_grayscale [1, 2, 3] 0 5 3 = some [1, 2, 3] :=
  ⟨by decide, C7_empty_is_noop [1, 2, 3] 0 5 3 (by decide)⟩

/-- C10 at a 3-channel pixel, inside its buffer, and at two 1-channel pixels,
whose last access is at index 3 of a buffer of length 2. -/
theorem C10_access_bounds_witness :
    ((3 : Int) ≤ 3 ∧ (0 : Int) ≤ 1 ∧
      (([10, 20, 30] : List Byte).length : Int) = 1 * 1 * 3 ∧
      (([10, 20, 30] : List Byte).length : Int) ≤ INT_MAX) ∧
    ((∀ i : Int, 0 ≤ i → i < 1 * 1 →
        0 ≤ i * 3 ∧ i * 3 + 2 < (([10, 20, 30] : List Byte).length : Int) ∧
        i * 3 + 2 ≤ INT_MAX) ∧
      ∃ out, Containers.convert_to_grayscale [10, 20, 30] 1 1 3 = some out ∧
        Hybrid.convert_to_grayscale [10, 20, 30] 1 1 3 = some out) ∧
    (((1 : Int) = 1 ∨ (1 : Int) = 2) ∧ (1 : Int) ≤ 2 * 1 ∧
      (([10, 20] : List Byte).length : Int) = 2 * 1 * 1) ∧
    ((([10, 20] : List Byte).length : Int) ≤ (2 * 1 - 1) * 1 + 2 ∧
      Containers.convert_to_grayscale [10, 20] 2 1 1 = none ∧
      Hybrid.convert_to_grayscale [10, 20] 2 1 1 = none ∧
      Containers.run_pixels 1 (List.range ((2 : Int) * 1).toNat) [10, 20] = none) :=
  ⟨⟨by decide, by decide, by decide, by decide⟩,
    C10_access_bounds.1 [10, 20, 30] 1 1 3 (by decide) (by decide) (by decide) (by decide)
      (by decide),
    ⟨by decide, by decide, by decide⟩,
    C10_access_bounds.2 [10, 20] 2 1 1 (by decide) (by decide) (by decide)⟩

end Grayscale
